import Mathlib

/-!
Verification of the `SecurityAnalyzer` incident-response triage program
(`graphistryChallenge.py`): index construction from activity/access logs
and breadth-first compromise propagation.

The embedding mirrors the Python source:
* `ActivityRecord` / `AccessRecord` are the rows of the two input tables.
* `SecurityAnalyzer` is the object state (`self`): the raw logs, the three
  lookup mappings built in `__init__` via `defaultdict(list)` appends, the
  visited/affected sets and the event log.
* `analyze_compromise` is the breadth-first traversal.  The Python `while`
  loop is embedded with a fuel parameter; the fuel `access_logs.length + 1`
  is proved sufficient below, so the embedded function is total exactly
  where the Python loop terminates.
* `SecurityAnalyzer.initChecked` models `__init__` on raw rows whose fields
  may be missing: a missing required field raises (here: `Except.error`),
  so no analyzer object is produced.
-/

structure ActivityRecord where
  user_id : String
  computer_id : String
deriving DecidableEq

structure AccessRecord where
  computer_id : String
  affected_user_id : String
  activity_type : String
deriving DecidableEq

/-- One `defaultdict(list)` update: `m[k].append(v)`. -/
def mapAppend {β : Type} (m : String → List β) (k : String) (v : β) :
    String → List β :=
  fun q => if q = k then m q ++ [v] else m q

/-- The loop `for row in activity_logs: user_to_computers[row.user_id].append(row.computer_id)`. -/
def buildUserToComputers (rows : List ActivityRecord) : String → List String :=
  rows.foldl (fun m r => mapAppend m r.user_id r.computer_id) (fun _ => [])

/-- The loop over `access_logs` filling `computer_activities`. -/
def buildComputerActivities (rows : List AccessRecord) :
    String → List (String × String) :=
  rows.foldl
    (fun m r => mapAppend m r.computer_id (r.affected_user_id, r.activity_type))
    (fun _ => [])

/-- The loop over `access_logs` filling `computer_to_users`. -/
def buildComputerToUsers (rows : List AccessRecord) : String → List String :=
  rows.foldl (fun m r => mapAppend m r.computer_id r.affected_user_id)
    (fun _ => [])

/-- The state held on `self` by the Python `SecurityAnalyzer` object. -/
structure SecurityAnalyzer where
  access_logs : List AccessRecord
  activity_logs : List ActivityRecord
  visited_users : Finset String
  visited_computers : Finset String
  event_log : List String
  affected_users : Finset String
  affected_computers : Finset String
  user_to_computers : String → List String
  computer_activities : String → List (String × String)
  computer_to_users : String → List String

/-- `SecurityAnalyzer.__init__` on well-formed rows: empty traversal state
and the three lookup mappings built from the two logs. -/
def SecurityAnalyzer.init (access_logs : List AccessRecord)
    (activity_logs : List ActivityRecord) : SecurityAnalyzer where
  access_logs := access_logs
  activity_logs := activity_logs
  visited_users := ∅
  visited_computers := ∅
  event_log := []
  affected_users := ∅
  affected_computers := ∅
  user_to_computers := buildUserToComputers activity_logs
  computer_activities := buildComputerActivities access_logs
  computer_to_users := buildComputerToUsers access_logs

/-- The inner loop `for user in users_on_computer: ...` of
`analyze_compromise`: visits, marks affected, enqueues and logs each
not-yet-visited user of the freshly visited computer. -/
def processUsers (computer : String) (users : List String)
    (a : SecurityAnalyzer) (queue : List String) :
    SecurityAnalyzer × List String :=
  match users with
  | [] => (a, queue)
  | user :: rest =>
    if user ∈ a.visited_users then
      processUsers computer rest a queue
    else
      processUsers computer rest
        { a with
          affected_users := insert user a.affected_users
          visited_users := insert user a.visited_users
          event_log := a.event_log
            ++ [s!"Computer {computer} affected user {user}"] }
        (queue ++ [user])

/-- The body run when `analyze_compromise` reaches a not-yet-visited
computer: mark it visited and affected, log the access line, the activities
header and one line per `computer_activities` entry. -/
def visitComputer (current_user computer : String) (a : SecurityAnalyzer) :
    SecurityAnalyzer :=
  { a with
    visited_computers := insert computer a.visited_computers
    affected_computers := insert computer a.affected_computers
    event_log := a.event_log
      ++ [s!"User {current_user} accessed computer {computer}",
          s!"Activities on computer {computer}:"]
      ++ (a.computer_activities computer).map
          (fun p => s!"  - {p.2} by user {p.1}") }

/-- The loop `for computer in user_computers: ...` of `analyze_compromise`:
skips visited computers; otherwise marks the computer visited and affected,
logs its access and activity block, and runs the inner user loop. -/
def processComputers (current_user : String) (computers : List String)
    (a : SecurityAnalyzer) (queue : List String) :
    SecurityAnalyzer × List String :=
  match computers with
  | [] => (a, queue)
  | computer :: rest =>
    if computer ∈ a.visited_computers then
      processComputers current_user rest a queue
    else
      let a1 := visitComputer current_user computer a
      let r := processUsers computer (a1.computer_to_users computer) a1 queue
      processComputers current_user rest r.1 r.2

/-- The log line emitted when a user is dequeued. -/
def logProcessing (current_user : String) (a : SecurityAnalyzer) :
    SecurityAnalyzer :=
  { a with event_log := a.event_log
      ++ [s!"Processing user: {current_user}"] }

/-- The `while queue:` loop of `analyze_compromise`, with explicit fuel.
Returns `none` only when the fuel runs out before the queue drains. -/
def bfsLoop : Nat → List String → SecurityAnalyzer →
    Option SecurityAnalyzer
  | _, [], a => some a
  | 0, _ :: _, _ => none
  | fuel + 1, current_user :: rest, a =>
    let a1 := logProcessing current_user a
    let r := processComputers current_user
      (a1.user_to_computers current_user) a1 rest
    bfsLoop fuel r.2 r.1

/-- The start of `analyze_compromise`: mark the initial user visited and
affected and log the start line. -/
def startAnalysis (initial_user : String) (a : SecurityAnalyzer) :
    SecurityAnalyzer :=
  { a with
    visited_users := insert initial_user a.visited_users
    affected_users := insert initial_user a.affected_users
    event_log := a.event_log
      ++ [s!"Analysis started with suspicious user {initial_user}"] }

/-- `analyze_compromise` with explicit fuel for the `while` loop: seed the
queue, mark the initial user visited and affected, log the start line, then
drain the queue. -/
def analyzeFuel (a : SecurityAnalyzer) (initial_user : String) (fuel : Nat) :
    Option SecurityAnalyzer :=
  bfsLoop fuel [initial_user] (startAnalysis initial_user a)

/-- `SecurityAnalyzer.analyze_compromise`.  The fuel
`access_logs.length + 1` is proved sufficient (`bfsLoop_isSome`) for every
analyzer whose `computer_to_users` values come from its access rows, which
holds for every analyzer the program ever builds; the `getD` fallback is
never taken there. -/
def analyze_compromise (a : SecurityAnalyzer) (initial_user : String) :
    SecurityAnalyzer :=
  (analyzeFuel a initial_user (a.access_logs.length + 1)).getD a

/-- Raw activity row: a required field may be missing. -/
structure RawActivityRecord where
  user_id : Option String
  computer_id : Option String
deriving DecidableEq

/-- Raw access row: a required field may be missing. -/
structure RawAccessRecord where
  computer_id : Option String
  affected_user_id : Option String
  activity_type : Option String
deriving DecidableEq

inductive BuildError where
  | malformedRecord : BuildError
deriving DecidableEq

/-- Reading a required field of a row: missing fields fail (the Python
`row[...]` lookup raises on a missing required field). -/
def requireField {α : Type} : Option α → Except BuildError α
  | some v => .ok v
  | none => .error .malformedRecord

def parseActivityRecord (r : RawActivityRecord) :
    Except BuildError ActivityRecord :=
  match requireField r.user_id with
  | .error e => .error e
  | .ok u =>
    match requireField r.computer_id with
    | .error e => .error e
    | .ok c => .ok { user_id := u, computer_id := c }

def parseAccessRecord (r : RawAccessRecord) :
    Except BuildError AccessRecord :=
  match requireField r.computer_id with
  | .error e => .error e
  | .ok c =>
    match requireField r.affected_user_id with
    | .error e => .error e
    | .ok u =>
      match requireField r.activity_type with
      | .error e => .error e
      | .ok t => .ok { computer_id := c, affected_user_id := u,
                       activity_type := t }

/-- Row-by-row extraction, stopping at the first failing row. -/
def parseAll {α β : Type} (f : α → Except BuildError β) :
    List α → Except BuildError (List β)
  | [] => .ok []
  | x :: xs =>
    match f x with
    | .error e => .error e
    | .ok y =>
      match parseAll f xs with
      | .error e => .error e
      | .ok ys => .ok (y :: ys)

/-- `SecurityAnalyzer.__init__` on raw rows: the activity loop runs first,
then the access loop, and the first missing required field aborts the whole
construction, producing no analyzer object. -/
def SecurityAnalyzer.initChecked (access : List RawAccessRecord)
    (activity : List RawActivityRecord) :
    Except BuildError SecurityAnalyzer :=
  match parseAll parseActivityRecord activity with
  | .error e => .error e
  | .ok acts =>
    match parseAll parseAccessRecord access with
    | .error e => .error e
    | .ok accs => .ok (SecurityAnalyzer.init accs acts)

/-- A raw activity row with a missing required field. -/
def RawActivityRecord.malformed (r : RawActivityRecord) : Prop :=
  r.user_id = none ∨ r.computer_id = none

instance (r : RawActivityRecord) : Decidable r.malformed := by
  unfold RawActivityRecord.malformed; infer_instance

/-- A raw access row with a missing required field. -/
def RawAccessRecord.malformed (r : RawAccessRecord) : Prop :=
  r.computer_id = none ∨ r.affected_user_id = none ∨ r.activity_type = none

instance (r : RawAccessRecord) : Decidable r.malformed := by
  unfold RawAccessRecord.malformed; infer_instance

/-- Spec-side reachability: users reachable from the seed by alternating
user→computer edges (`user_to_computers`) and computer→user edges
(`computer_to_users`). -/
inductive ReachesUser (a : SecurityAnalyzer) (seed : String) : String → Prop
  | refl : ReachesUser a seed seed
  | step {u c u' : String} : ReachesUser a seed u →
      c ∈ a.user_to_computers u → u' ∈ a.computer_to_users c →
      ReachesUser a seed u'

/-- Spec-side reachability for computers: one user→computer edge from a
reachable user. -/
def ReachesComputer (a : SecurityAnalyzer) (seed : String) (c : String) :
    Prop :=
  ∃ u, ReachesUser a seed u ∧ c ∈ a.user_to_computers u

/-! ### Characterization of the lookup mappings -/

theorem foldl_mapAppend {α β : Type} (key : α → String) (val : α → β) :
    ∀ (rows : List α) (m : String → List β) (q : String),
    (rows.foldl (fun acc r => mapAppend acc (key r) (val r)) m) q
      = m q ++ (rows.filter (fun r => key r == q)).map val := by
  intro rows
  induction rows with
  | nil => intro m q; simp
  | cons r rs ih =>
    intro m q
    simp only [List.foldl_cons, List.filter_cons]
    rw [ih]
    by_cases h : key r = q
    · subst h
      simp [mapAppend]
    · have hq : ¬ q = key r := fun hc => h hc.symm
      have hb : (key r == q) = false := beq_eq_false_iff_ne.mpr h
      simp [mapAppend, hq, hb]

theorem buildUserToComputers_apply (rows : List ActivityRecord) (u : String) :
    buildUserToComputers rows u
      = (rows.filter (fun r => r.user_id == u)).map
          (fun r => r.computer_id) := by
  simpa using foldl_mapAppend (fun r => r.user_id)
    (fun r => r.computer_id) rows (fun _ => []) u

theorem buildComputerActivities_apply (rows : List AccessRecord)
    (c : String) :
    buildComputerActivities rows c
      = (rows.filter (fun r => r.computer_id == c)).map
          (fun r => (r.affected_user_id, r.activity_type)) := by
  simpa using foldl_mapAppend (fun r => r.computer_id)
    (fun r => (r.affected_user_id, r.activity_type)) rows (fun _ => []) c

theorem buildComputerToUsers_apply (rows : List AccessRecord) (c : String) :
    buildComputerToUsers rows c
      = (rows.filter (fun r => r.computer_id == c)).map
          (fun r => r.affected_user_id) := by
  simpa using foldl_mapAppend (fun r => r.computer_id)
    (fun r => r.affected_user_id) rows (fun _ => []) c

/-- `computer_to_users` and `computer_activities` are built from the same
rows in the same order: the former is the first projection of the latter. -/
theorem buildComputerToUsers_eq_map_fst (rows : List AccessRecord)
    (c : String) :
    buildComputerToUsers rows c
      = (buildComputerActivities rows c).map Prod.fst := by
  rw [buildComputerToUsers_apply, buildComputerActivities_apply,
    List.map_map]
  rfl

/-- The users an analyzer's access rows mention. -/
def accessUsers (a : SecurityAnalyzer) : Finset String :=
  (a.access_logs.map (fun r => r.affected_user_id)).toFinset

/-- The analyzers the program builds: every user a `computer_to_users`
entry can yield appears among the access rows' affected users. -/
def WFAnalyzer (a : SecurityAnalyzer) : Prop :=
  ∀ c u, u ∈ a.computer_to_users c → u ∈ accessUsers a

theorem init_wf (access_logs : List AccessRecord)
    (activity_logs : List ActivityRecord) :
    WFAnalyzer (SecurityAnalyzer.init access_logs activity_logs) := by
  intro c u hu
  simp only [SecurityAnalyzer.init, buildComputerToUsers_apply] at hu
  simp only [accessUsers, SecurityAnalyzer.init, List.mem_toFinset,
    List.mem_map]
  rcases List.mem_map.mp hu with ⟨r, hr, rfl⟩
  exact ⟨r, (List.mem_filter.mp hr).1, rfl⟩

/-! ### Lemmas about the inner user loop -/

theorem processUsers_fields (computer : String) (users : List String)
    (a : SecurityAnalyzer) (queue : List String) :
    (processUsers computer users a queue).1.user_to_computers
        = a.user_to_computers ∧
    (processUsers computer users a queue).1.computer_to_users
        = a.computer_to_users ∧
    (processUsers computer users a queue).1.computer_activities
        = a.computer_activities ∧
    (processUsers computer users a queue).1.access_logs = a.access_logs ∧
    (processUsers computer users a queue).1.activity_logs
        = a.activity_logs ∧
    (processUsers computer users a queue).1.visited_computers
        = a.visited_computers ∧
    (processUsers computer users a queue).1.affected_computers
        = a.affected_computers := by
  induction users generalizing a queue with
  | nil => simp [processUsers]
  | cons u rest ih =>
    by_cases h : u ∈ a.visited_users
    · simpa [processUsers, h] using ih a queue
    · simpa [processUsers, h] using ih _ _

theorem processUsers_visited_subset (computer : String)
    (users : List String) (a : SecurityAnalyzer) (queue : List String) :
    a.visited_users ⊆ (processUsers computer users a queue).1.visited_users := by
  induction users generalizing a queue with
  | nil => simp [processUsers]
  | cons u rest ih =>
    by_cases h : u ∈ a.visited_users
    · simpa [processUsers, h] using ih a queue
    · simp only [processUsers, if_neg h]
      intro x hx
      exact ih _ _ (Finset.mem_insert_of_mem hx)

theorem processUsers_affected_subset (computer : String)
    (users : List String) (a : SecurityAnalyzer) (queue : List String) :
    a.affected_users
      ⊆ (processUsers computer users a queue).1.affected_users := by
  induction users generalizing a queue with
  | nil => simp [processUsers]
  | cons u rest ih =>
    by_cases h : u ∈ a.visited_users
    · simpa [processUsers, h] using ih a queue
    · simp only [processUsers, if_neg h]
      intro x hx
      exact ih _ _ (Finset.mem_insert_of_mem hx)

theorem processUsers_log (computer : String) (users : List String)
    (a : SecurityAnalyzer) (queue : List String) :
    ∃ t, (processUsers computer users a queue).1.event_log
        = a.event_log ++ t := by
  induction users generalizing a queue with
  | nil => exact ⟨[], by simp [processUsers]⟩
  | cons u rest ih =>
    by_cases h : u ∈ a.visited_users
    · simpa [processUsers, h] using ih a queue
    · simp only [processUsers, if_neg h]
      rcases ih ({ a with
          affected_users := insert u a.affected_users
          visited_users := insert u a.visited_users
          event_log := a.event_log
            ++ [s!"Computer {computer} affected user {u}"] })
        (queue ++ [u]) with ⟨t, ht⟩
      exact ⟨s!"Computer {computer} affected user {u}" :: t, by
        simpa [List.append_assoc] using ht⟩

theorem processUsers_queue (computer : String) (users : List String)
    (a : SecurityAnalyzer) (queue : List String) :
    ∃ t, (processUsers computer users a queue).2 = queue ++ t := by
  induction users generalizing a queue with
  | nil => exact ⟨[], by simp [processUsers]⟩
  | cons u rest ih =>
    by_cases h : u ∈ a.visited_users
    · simpa [processUsers, h] using ih a queue
    · simp only [processUsers, if_neg h]
      rcases ih ({ a with
          affected_users := insert u a.affected_users
          visited_users := insert u a.visited_users
          event_log := a.event_log
            ++ [s!"Computer {computer} affected user {u}"] })
        (queue ++ [u]) with ⟨t, ht⟩
      exact ⟨u :: t, by simpa [List.append_assoc] using ht⟩

theorem processUsers_users_visited (computer : String)
    (users : List String) (a : SecurityAnalyzer) (queue : List String) :
    ∀ u ∈ users, u ∈ (processUsers computer users a queue).1.visited_users := by
  induction users generalizing a queue with
  | nil => simp
  | cons u rest ih =>
    intro x hx
    by_cases h : u ∈ a.visited_users
    · simp only [processUsers, if_pos h]
      rcases List.mem_cons.mp hx with rfl | hx'
      · exact processUsers_visited_subset computer rest a queue h
      · exact ih a queue x hx'
    · simp only [processUsers, if_neg h]
      rcases List.mem_cons.mp hx with rfl | hx'
      · exact processUsers_visited_subset computer rest _ _
          (Finset.mem_insert_self x _)
      · exact ih _ _ x hx'

theorem processUsers_visited_queue (computer : String)
    (users : List String) (a : SecurityAnalyzer) (queue : List String) :
    ∀ u, u ∈ (processUsers computer users a queue).1.visited_users →
      u ∈ a.visited_users ∨ u ∈ (processUsers computer users a queue).2 := by
  induction users generalizing a queue with
  | nil => intro u hu; exact Or.inl (by simpa [processUsers] using hu)
  | cons u rest ih =>
    intro x hx
    by_cases h : u ∈ a.visited_users
    · simp only [processUsers, if_pos h] at hx ⊢
      exact ih a queue x hx
    · simp only [processUsers, if_neg h] at hx ⊢
      rcases ih _ _ x hx with hv | hq
      · rcases Finset.mem_insert.mp hv with rfl | hv'
        · right
          rcases processUsers_queue computer rest
            ({ a with
              affected_users := insert x a.affected_users
              visited_users := insert x a.visited_users
              event_log := a.event_log
                ++ [s!"Computer {computer} affected user {x}"] })
            (queue ++ [x]) with ⟨t, ht⟩
          rw [ht]
          simp
        · exact Or.inl hv'
      · exact Or.inr hq

theorem processUsers_queue_cases (computer : String)
    (users : List String) (a : SecurityAnalyzer) (queue : List String) :
    ∀ u, u ∈ (processUsers computer users a queue).2 →
      u ∈ queue ∨ u ∈ (processUsers computer users a queue).1.visited_users := by
  induction users generalizing a queue with
  | nil => intro u hu; exact Or.inl (by simpa [processUsers] using hu)
  | cons u rest ih =>
    intro x hx
    by_cases h : u ∈ a.visited_users
    · simp only [processUsers, if_pos h] at hx ⊢
      exact ih a queue x hx
    · simp only [processUsers, if_neg h] at hx ⊢
      rcases ih _ _ x hx with hq | hv
      · rcases List.mem_append.mp hq with hq' | hq'
        · exact Or.inl hq'
        · right
          have hx1 : x ∈ ({ a with
              affected_users := insert u a.affected_users
              visited_users := insert u a.visited_users
              event_log := a.event_log
                ++ [s!"Computer {computer} affected user {u}"] } :
                SecurityAnalyzer).visited_users := by
            have : x = u := by simpa using hq'
            simp [this]
          exact processUsers_visited_subset computer rest _ _ hx1
      · exact Or.inr hv

theorem processUsers_sync (computer : String) (users : List String)
    (a : SecurityAnalyzer) (queue : List String)
    (h : a.affected_users = a.visited_users) :
    (processUsers computer users a queue).1.affected_users
      = (processUsers computer users a queue).1.visited_users := by
  induction users generalizing a queue with
  | nil => simpa [processUsers] using h
  | cons u rest ih =>
    by_cases hu : u ∈ a.visited_users
    · simp only [processUsers, if_pos hu]
      exact ih a queue h
    · simp only [processUsers, if_neg hu]
      exact ih _ _ (by simp [h])

theorem processUsers_pred (computer : String) (users : List String)
    (a : SecurityAnalyzer) (queue : List String) (PU : String → Prop)
    (h1 : ∀ u ∈ users, PU u) (h2 : ∀ u ∈ a.visited_users, PU u) :
    ∀ u ∈ (processUsers computer users a queue).1.visited_users, PU u := by
  induction users generalizing a queue with
  | nil => intro u hu; exact h2 u (by simpa [processUsers] using hu)
  | cons u rest ih =>
    intro x hx
    by_cases h : u ∈ a.visited_users
    · simp only [processUsers, if_pos h] at hx
      exact ih a queue (fun v hv => h1 v (List.mem_cons_of_mem u hv)) h2 x hx
    · simp only [processUsers, if_neg h] at hx
      refine ih _ _ (fun v hv => h1 v (List.mem_cons_of_mem u hv)) ?_ x hx
      intro v hv
      rcases Finset.mem_insert.mp hv with rfl | hv'
      · exact h1 v (List.mem_cons_self v rest)
      · exact h2 v hv'

theorem processUsers_measure (computer : String) (users : List String)
    (a : SecurityAnalyzer) (queue : List String) (U : Finset String)
    (hU : ∀ u ∈ users, u ∈ U) :
    (U \ (processUsers computer users a queue).1.visited_users).card
        + (processUsers computer users a queue).2.length
      ≤ (U \ a.visited_users).card + queue.length := by
  induction users generalizing a queue with
  | nil => simp [processUsers]
  | cons u rest ih =>
    by_cases h : u ∈ a.visited_users
    · simp only [processUsers, if_pos h]
      exact ih a queue (fun v hv => hU v (List.mem_cons_of_mem u hv))
    · simp only [processUsers, if_neg h]
      have hstep := ih ({ a with
          affected_users := insert u a.affected_users
          visited_users := insert u a.visited_users
          event_log := a.event_log
            ++ [s!"Computer {computer} affected user {u}"] })
        (queue ++ [u]) (fun v hv => hU v (List.mem_cons_of_mem u hv))
      refine le_trans hstep ?_
      have hmem : u ∈ U \ a.visited_users :=
        Finset.mem_sdiff.mpr ⟨hU u (List.mem_cons_self u rest), h⟩
      have hcard : (U \ insert u a.visited_users).card + 1
          = (U \ a.visited_users).card := by
        rw [Finset.sdiff_insert]
        exact Finset.card_erase_add_one hmem
      simp only [List.length_append, List.length_singleton]
      omega

/-! ### Lemmas about the computer loop -/

theorem processComputers_cons_visited (current_user computer : String)
    (rest : List String) (a : SecurityAnalyzer) (queue : List String)
    (h : computer ∈ a.visited_computers) :
    processComputers current_user (computer :: rest) a queue
      = processComputers current_user rest a queue := by
  simp [processComputers, h]

theorem processComputers_cons_new (current_user computer : String)
    (rest : List String) (a : SecurityAnalyzer) (queue : List String)
    (h : computer ∉ a.visited_computers) :
    processComputers current_user (computer :: rest) a queue
      = processComputers current_user rest
          (processUsers computer (a.computer_to_users computer)
            (visitComputer current_user computer a) queue).1
          (processUsers computer (a.computer_to_users computer)
            (visitComputer current_user computer a) queue).2 := by
  simp only [processComputers, if_neg h]
  rfl

theorem processComputers_fields (current_user : String)
    (computers : List String) (a : SecurityAnalyzer) (queue : List String) :
    (processComputers current_user computers a queue).1.user_to_computers
        = a.user_to_computers ∧
    (processComputers current_user computers a queue).1.computer_to_users
        = a.computer_to_users ∧
    (processComputers current_user computers a queue).1.computer_activities
        = a.computer_activities ∧
    (processComputers current_user computers a queue).1.access_logs
        = a.access_logs ∧
    (processComputers current_user computers a queue).1.activity_logs
        = a.activity_logs := by
  induction computers generalizing a queue with
  | nil => simp [processComputers]
  | cons c rest ih =>
    by_cases h : c ∈ a.visited_computers
    · rw [processComputers_cons_visited current_user c rest a queue h]
      exact ih a queue
    · rw [processComputers_cons_new current_user c rest a queue h]
      obtain ⟨h1, h2, h3, h4, h5, _, _⟩ := processUsers_fields c
        (a.computer_to_users c) (visitComputer current_user c a) queue
      obtain ⟨g1, g2, g3, g4, g5⟩ := ih _ _
      exact ⟨g1.trans h1, g2.trans h2, g3.trans h3, g4.trans h4,
        g5.trans h5⟩

theorem processComputers_visited_users_subset (current_user : String)
    (computers : List String) (a : SecurityAnalyzer) (queue : List String) :
    a.visited_users
      ⊆ (processComputers current_user computers a queue).1.visited_users := by
  induction computers generalizing a queue with
  | nil => simp [processComputers]
  | cons c rest ih =>
    by_cases h : c ∈ a.visited_computers
    · rw [processComputers_cons_visited current_user c rest a queue h]
      exact ih a queue
    · rw [processComputers_cons_new current_user c rest a queue h]
      intro x hx
      exact ih _ _ (processUsers_visited_subset c _ _ _ hx)

theorem processComputers_affected_users_subset (current_user : String)
    (computers : List String) (a : SecurityAnalyzer) (queue : List String) :
    a.affected_users
      ⊆ (processComputers current_user computers a queue).1.affected_users := by
  induction computers generalizing a queue with
  | nil => simp [processComputers]
  | cons c rest ih =>
    by_cases h : c ∈ a.visited_computers
    · rw [processComputers_cons_visited current_user c rest a queue h]
      exact ih a queue
    · rw [processComputers_cons_new current_user c rest a queue h]
      intro x hx
      exact ih _ _ (processUsers_affected_subset c _ _ _ hx)

theorem processComputers_visited_computers_subset (current_user : String)
    (computers : List String) (a : SecurityAnalyzer) (queue : List String) :
    a.visited_computers
      ⊆ (processComputers current_user computers a queue).1.visited_computers := by
  induction computers generalizing a queue with
  | nil => simp [processComputers]
  | cons c rest ih =>
    by_cases h : c ∈ a.visited_computers
    · rw [processComputers_cons_visited current_user c rest a queue h]
      exact ih a queue
    · rw [processComputers_cons_new current_user c rest a queue h]
      intro x hx
      have hx1 : x ∈ (processUsers c (a.computer_to_users c)
          (visitComputer current_user c a) queue).1.visited_computers := by
        rw [(processUsers_fields c (a.computer_to_users c)
          (visitComputer current_user c a) queue).2.2.2.2.2.1]
        exact Finset.mem_insert_of_mem hx
      exact ih _ _ hx1

theorem processComputers_affected_computers_subset (current_user : String)
    (computers : List String) (a : SecurityAnalyzer) (queue : List String) :
    a.affected_computers
      ⊆ (processComputers current_user computers a queue).1.affected_computers := by
  induction computers generalizing a queue with
  | nil => simp [processComputers]
  | cons c rest ih =>
    by_cases h : c ∈ a.visited_computers
    · rw [processComputers_cons_visited current_user c rest a queue h]
      exact ih a queue
    · rw [processComputers_cons_new current_user c rest a queue h]
      intro x hx
      have hx1 : x ∈ (processUsers c (a.computer_to_users c)
          (visitComputer current_user c a) queue).1.affected_computers := by
        rw [(processUsers_fields c (a.computer_to_users c)
          (visitComputer current_user c a) queue).2.2.2.2.2.2]
        exact Finset.mem_insert_of_mem hx
      exact ih _ _ hx1

theorem processComputers_log (current_user : String)
    (computers : List String) (a : SecurityAnalyzer) (queue : List String) :
    ∃ t, (processComputers current_user computers a queue).1.event_log
        = a.event_log ++ t := by
  induction computers generalizing a queue with
  | nil => exact ⟨[], by simp [processComputers]⟩
  | cons c rest ih =>
    by_cases h : c ∈ a.visited_computers
    · rw [processComputers_cons_visited current_user c rest a queue h]
      exact ih a queue
    · rw [processComputers_cons_new current_user c rest a queue h]
      rcases ih (processUsers c (a.computer_to_users c)
        (visitComputer current_user c a) queue).1
        (processUsers c (a.computer_to_users c)
          (visitComputer current_user c a) queue).2 with ⟨t2, ht2⟩
      rcases processUsers_log c (a.computer_to_users c)
        (visitComputer current_user c a) queue with ⟨t1, ht1⟩
      refine ⟨([s!"User {current_user} accessed computer {c}",
          s!"Activities on computer {c}:"]
          ++ (a.computer_activities c).map
              (fun p => s!"  - {p.2} by user {p.1}")) ++ t1 ++ t2, ?_⟩
      rw [ht2, ht1]
      simp [visitComputer]

theorem processComputers_queue (current_user : String)
    (computers : List String) (a : SecurityAnalyzer) (queue : List String) :
    ∃ t, (processComputers current_user computers a queue).2
        = queue ++ t := by
  induction computers generalizing a queue with
  | nil => exact ⟨[], by simp [processComputers]⟩
  | cons c rest ih =>
    by_cases h : c ∈ a.visited_computers
    · rw [processComputers_cons_visited current_user c rest a queue h]
      exact ih a queue
    · rw [processComputers_cons_new current_user c rest a queue h]
      rcases ih (processUsers c (a.computer_to_users c)
        (visitComputer current_user c a) queue).1
        (processUsers c (a.computer_to_users c)
          (visitComputer current_user c a) queue).2 with ⟨t2, ht2⟩
      rcases processUsers_queue c (a.computer_to_users c)
        (visitComputer current_user c a) queue with ⟨t1, ht1⟩
      exact ⟨t1 ++ t2, by rw [ht2, ht1, List.append_assoc]⟩

theorem processComputers_computers_visited (current_user : String)
    (computers : List String) (a : SecurityAnalyzer) (queue : List String) :
    ∀ c ∈ computers,
      c ∈ (processComputers current_user computers a queue).1.visited_computers := by
  induction computers generalizing a queue with
  | nil => simp
  | cons c rest ih =>
    intro x hx
    by_cases h : c ∈ a.visited_computers
    · rw [processComputers_cons_visited current_user c rest a queue h]
      rcases List.mem_cons.mp hx with rfl | hx'
      · exact processComputers_visited_computers_subset current_user rest
          a queue h
      · exact ih a queue x hx'
    · rw [processComputers_cons_new current_user c rest a queue h]
      rcases List.mem_cons.mp hx with rfl | hx'
      · refine processComputers_visited_computers_subset current_user rest
          _ _ ?_
        rw [(processUsers_fields x (a.computer_to_users x)
          (visitComputer current_user x a) queue).2.2.2.2.2.1]
        exact Finset.mem_insert_self x _
      · exact ih _ _ x hx'

theorem processComputers_visitedC_cases (current_user : String)
    (computers : List String) (a : SecurityAnalyzer) (queue : List String) :
    ∀ c, c ∈ (processComputers current_user computers a queue).1.visited_computers →
      c ∈ a.visited_computers ∨ c ∈ computers := by
  induction computers generalizing a queue with
  | nil => intro c hc; exact Or.inl (by simpa [processComputers] using hc)
  | cons c rest ih =>
    intro x hx
    by_cases h : c ∈ a.visited_computers
    · rw [processComputers_cons_visited current_user c rest a queue h] at hx
      rcases ih a queue x hx with h' | h'
      · exact Or.inl h'
      · exact Or.inr (List.mem_cons_of_mem c h')
    · rw [processComputers_cons_new current_user c rest a queue h] at hx
      rcases ih _ _ x hx with h' | h'
      · rw [(processUsers_fields c (a.computer_to_users c)
          (visitComputer current_user c a) queue).2.2.2.2.2.1] at h'
        rcases Finset.mem_insert.mp h' with rfl | h''
        · exact Or.inr (List.mem_cons_self x rest)
        · exact Or.inl h''
      · exact Or.inr (List.mem_cons_of_mem c h')

theorem processComputers_visited_queue (current_user : String)
    (computers : List String) (a : SecurityAnalyzer) (queue : List String) :
    ∀ u, u ∈ (processComputers current_user computers a queue).1.visited_users →
      u ∈ a.visited_users ∨ u ∈ (processComputers current_user computers a queue).2 := by
  induction computers generalizing a queue with
  | nil => intro u hu; exact Or.inl (by simpa [processComputers] using hu)
  | cons c rest ih =>
    intro x hx
    by_cases h : c ∈ a.visited_computers
    · rw [processComputers_cons_visited current_user c rest a queue h] at hx ⊢
      exact ih a queue x hx
    · rw [processComputers_cons_new current_user c rest a queue h] at hx ⊢
      rcases ih _ _ x hx with h' | h'
      · rcases processUsers_visited_queue c (a.computer_to_users c)
          (visitComputer current_user c a) queue x h' with h'' | h''
        · exact Or.inl h''
        · right
          rcases processComputers_queue current_user rest
            (processUsers c (a.computer_to_users c)
              (visitComputer current_user c a) queue).1
            (processUsers c (a.computer_to_users c)
              (visitComputer current_user c a) queue).2 with ⟨t, ht⟩
          rw [ht]
          exact List.mem_append_left t h''
      · exact Or.inr h'

theorem processComputers_queue_cases (current_user : String)
    (computers : List String) (a : SecurityAnalyzer) (queue : List String) :
    ∀ u, u ∈ (processComputers current_user computers a queue).2 →
      u ∈ queue ∨ u ∈ (processComputers current_user computers a queue).1.visited_users := by
  induction computers generalizing a queue with
  | nil => intro u hu; exact Or.inl (by simpa [processComputers] using hu)
  | cons c rest ih =>
    intro x hx
    by_cases h : c ∈ a.visited_computers
    · rw [processComputers_cons_visited current_user c rest a queue h] at hx ⊢
      exact ih a queue x hx
    · rw [processComputers_cons_new current_user c rest a queue h] at hx ⊢
      rcases ih _ _ x hx with h' | h'
      · rcases processUsers_queue_cases c (a.computer_to_users c)
          (visitComputer current_user c a) queue x h' with h'' | h''
        · exact Or.inl h''
        · exact Or.inr (processComputers_visited_users_subset current_user
            rest _ _ h'')
      · exact Or.inr h'

theorem processComputers_closure (current_user : String)
    (computers : List String) (a : SecurityAnalyzer) (queue : List String)
    (H : ∀ c ∈ a.visited_computers, ∀ u ∈ a.computer_to_users c,
      u ∈ a.visited_users) :
    ∀ c ∈ (processComputers current_user computers a queue).1.visited_computers,
      ∀ u ∈ a.computer_to_users c,
        u ∈ (processComputers current_user computers a queue).1.visited_users := by
  induction computers generalizing a queue with
  | nil =>
    intro c hc u hu
    simp only [processComputers] at hc ⊢
    exact H c hc u hu
  | cons c rest ih =>
    by_cases h : c ∈ a.visited_computers
    · rw [processComputers_cons_visited current_user c rest a queue h]
      exact ih a queue H
    · rw [processComputers_cons_new current_user c rest a queue h]
      have hfields := processUsers_fields c (a.computer_to_users c)
        (visitComputer current_user c a) queue
      have hc2u : (processUsers c (a.computer_to_users c)
          (visitComputer current_user c a) queue).1.computer_to_users
          = a.computer_to_users := hfields.2.1
      have hvc : (processUsers c (a.computer_to_users c)
          (visitComputer current_user c a) queue).1.visited_computers
          = insert c a.visited_computers := hfields.2.2.2.2.2.1
      have H' : ∀ c' ∈ (processUsers c (a.computer_to_users c)
            (visitComputer current_user c a) queue).1.visited_computers,
          ∀ u ∈ (processUsers c (a.computer_to_users c)
            (visitComputer current_user c a) queue).1.computer_to_users c',
          u ∈ (processUsers c (a.computer_to_users c)
            (visitComputer current_user c a) queue).1.visited_users := by
        rw [hvc, hc2u]
        intro c' hc' u hu
        rcases Finset.mem_insert.mp hc' with rfl | hc''
        · exact processUsers_users_visited c' (a.computer_to_users c')
            (visitComputer current_user c' a) queue u hu
        · exact processUsers_visited_subset c (a.computer_to_users c)
            (visitComputer current_user c a) queue (H c' hc'' u hu)
      intro c' hc' u hu
      refine ih _ _ ?_ c' hc' u ?_
      · intro c'' hc'' u' hu'
        exact H' c'' hc'' u' hu'
      · rw [hc2u]
        exact hu

theorem processComputers_pred (current_user : String)
    (computers : List String) (a : SecurityAnalyzer) (queue : List String)
    (PU PC : String → Prop)
    (hcs : ∀ c ∈ computers, PC c)
    (hedge : ∀ c u, PC c → u ∈ a.computer_to_users c → PU u)
    (hvu : ∀ u ∈ a.visited_users, PU u)
    (hvc : ∀ c ∈ a.visited_computers, PC c) :
    (∀ u ∈ (processComputers current_user computers a queue).1.visited_users,
        PU u) ∧
    (∀ c ∈ (processComputers current_user computers a queue).1.visited_computers,
        PC c) := by
  induction computers generalizing a queue with
  | nil =>
    simp only [processComputers]
    exact ⟨hvu, hvc⟩
  | cons c rest ih =>
    by_cases h : c ∈ a.visited_computers
    · rw [processComputers_cons_visited current_user c rest a queue h]
      exact ih a queue (fun c' hc' => hcs c' (List.mem_cons_of_mem c hc'))
        hedge hvu hvc
    · rw [processComputers_cons_new current_user c rest a queue h]
      have hfields := processUsers_fields c (a.computer_to_users c)
        (visitComputer current_user c a) queue
      have hPC : PC c := hcs c (List.mem_cons_self c rest)
      have hvu' : ∀ u ∈ (processUsers c (a.computer_to_users c)
          (visitComputer current_user c a) queue).1.visited_users, PU u :=
        processUsers_pred c (a.computer_to_users c)
          (visitComputer current_user c a) queue PU
          (fun u hu => hedge c u hPC hu) hvu
      have hvc' : ∀ c' ∈ (processUsers c (a.computer_to_users c)
          (visitComputer current_user c a) queue).1.visited_computers,
          PC c' := by
        rw [hfields.2.2.2.2.2.1]
        intro c' hc'
        rcases Finset.mem_insert.mp hc' with rfl | hc''
        · exact hPC
        · exact hvc c' hc''
      refine ih _ _ (fun c' hc' => hcs c' (List.mem_cons_of_mem c hc'))
        ?_ hvu' hvc'
      intro c' u hc' hu
      rw [hfields.2.1] at hu
      exact hedge c' u hc' hu

theorem processComputers_sync_users (current_user : String)
    (computers : List String) (a : SecurityAnalyzer) (queue : List String)
    (h : a.affected_users = a.visited_users) :
    (processComputers current_user computers a queue).1.affected_users
      = (processComputers current_user computers a queue).1.visited_users := by
  induction computers generalizing a queue with
  | nil => simpa [processComputers] using h
  | cons c rest ih =>
    by_cases hc : c ∈ a.visited_computers
    · rw [processComputers_cons_visited current_user c rest a queue hc]
      exact ih a queue h
    · rw [processComputers_cons_new current_user c rest a queue hc]
      exact ih _ _ (processUsers_sync c (a.computer_to_users c)
        (visitComputer current_user c a) queue h)

theorem processComputers_sync_computers (current_user : String)
    (computers : List String) (a : SecurityAnalyzer) (queue : List String)
    (h : a.affected_computers = a.visited_computers) :
    (processComputers current_user computers a queue).1.affected_computers
      = (processComputers current_user computers a queue).1.visited_computers := by
  induction computers generalizing a queue with
  | nil => simpa [processComputers] using h
  | cons c rest ih =>
    by_cases hc : c ∈ a.visited_computers
    · rw [processComputers_cons_visited current_user c rest a queue hc]
      exact ih a queue h
    · rw [processComputers_cons_new current_user c rest a queue hc]
      have hfields := processUsers_fields c (a.computer_to_users c)
        (visitComputer current_user c a) queue
      refine ih _ _ ?_
      rw [hfields.2.2.2.2.2.1, hfields.2.2.2.2.2.2]
      simpa [visitComputer] using congrArg (insert c) h

theorem processComputers_measure (current_user : String)
    (computers : List String) (a : SecurityAnalyzer) (queue : List String)
    (U : Finset String)
    (hU : ∀ c u, u ∈ a.computer_to_users c → u ∈ U) :
    (U \ (processComputers current_user computers a queue).1.visited_users).card
        + (processComputers current_user computers a queue).2.length
      ≤ (U \ a.visited_users).card + queue.length := by
  induction computers generalizing a queue with
  | nil => simp [processComputers]
  | cons c rest ih =>
    by_cases h : c ∈ a.visited_computers
    · rw [processComputers_cons_visited current_user c rest a queue h]
      exact ih a queue hU
    · rw [processComputers_cons_new current_user c rest a queue h]
      have hfields := processUsers_fields c (a.computer_to_users c)
        (visitComputer current_user c a) queue
      have hstep := processUsers_measure c (a.computer_to_users c)
        (visitComputer current_user c a) queue U (hU c)
      have hU' : ∀ c' u, u ∈ (processUsers c (a.computer_to_users c)
          (visitComputer current_user c a) queue).1.computer_to_users c' →
          u ∈ U := by
        rw [hfields.2.1]
        exact hU
      exact le_trans (ih _ _ hU') hstep

theorem processComputers_skip_all (current_user : String)
    (computers : List String) (a : SecurityAnalyzer) (queue : List String)
    (h : ∀ c ∈ computers, c ∈ a.visited_computers) :
    processComputers current_user computers a queue = (a, queue) := by
  induction computers with
  | nil => rfl
  | cons c rest ih =>
    rw [processComputers_cons_visited current_user c rest a queue
      (h c (List.mem_cons_self c rest))]
    exact ih (fun c' hc' => h c' (List.mem_cons_of_mem c hc'))

/-! ### Lemmas about the breadth-first queue loop -/

theorem bfsLoop_nil (fuel : Nat) (a : SecurityAnalyzer) :
    bfsLoop fuel [] a = some a := by
  cases fuel <;> rfl

theorem bfsLoop_succ (fuel : Nat) (current_user : String)
    (rest : List String) (a : SecurityAnalyzer) :
    bfsLoop (fuel + 1) (current_user :: rest) a
      = bfsLoop fuel
          (processComputers current_user
            (a.user_to_computers current_user)
            (logProcessing current_user a) rest).2
          (processComputers current_user
            (a.user_to_computers current_user)
            (logProcessing current_user a) rest).1 := by
  rfl

theorem bfsLoop_fields (fuel : Nat) (queue : List String)
    (a out : SecurityAnalyzer) (h : bfsLoop fuel queue a = some out) :
    out.user_to_computers = a.user_to_computers ∧
    out.computer_to_users = a.computer_to_users ∧
    out.computer_activities = a.computer_activities ∧
    out.access_logs = a.access_logs ∧
    out.activity_logs = a.activity_logs := by
  induction fuel generalizing queue a with
  | zero =>
    cases queue with
    | nil =>
      rw [bfsLoop_nil] at h
      cases h
      exact ⟨rfl, rfl, rfl, rfl, rfl⟩
    | cons cu rest => simp [bfsLoop] at h
  | succ n ih =>
    cases queue with
    | nil =>
      rw [bfsLoop_nil] at h
      cases h
      exact ⟨rfl, rfl, rfl, rfl, rfl⟩
    | cons cu rest =>
      rw [bfsLoop_succ] at h
      obtain ⟨g1, g2, g3, g4, g5⟩ := ih _ _ h
      obtain ⟨f1, f2, f3, f4, f5⟩ := processComputers_fields cu
        (a.user_to_computers cu) (logProcessing cu a) rest
      exact ⟨g1.trans f1, g2.trans f2, g3.trans f3, g4.trans f4,
        g5.trans f5⟩

theorem bfsLoop_mono (fuel : Nat) (queue : List String)
    (a out : SecurityAnalyzer) (h : bfsLoop fuel queue a = some out) :
    a.visited_users ⊆ out.visited_users ∧
    a.visited_computers ⊆ out.visited_computers ∧
    a.affected_users ⊆ out.affected_users ∧
    a.affected_computers ⊆ out.affected_computers ∧
    ∃ t, out.event_log = a.event_log ++ t := by
  induction fuel generalizing queue a with
  | zero =>
    cases queue with
    | nil =>
      rw [bfsLoop_nil] at h
      cases h
      exact ⟨Finset.Subset.refl _, Finset.Subset.refl _,
        Finset.Subset.refl _, Finset.Subset.refl _, [], by simp⟩
    | cons cu rest => simp [bfsLoop] at h
  | succ n ih =>
    cases queue with
    | nil =>
      rw [bfsLoop_nil] at h
      cases h
      exact ⟨Finset.Subset.refl _, Finset.Subset.refl _,
        Finset.Subset.refl _, Finset.Subset.refl _, [], by simp⟩
    | cons cu rest =>
      rw [bfsLoop_succ] at h
      obtain ⟨g1, g2, g3, g4, t2, ht2⟩ := ih _ _ h
      refine ⟨?_, ?_, ?_, ?_, ?_⟩
      · exact fun x hx => g1 (processComputers_visited_users_subset cu
          (a.user_to_computers cu) (logProcessing cu a) rest hx)
      · exact fun x hx => g2 (processComputers_visited_computers_subset cu
          (a.user_to_computers cu) (logProcessing cu a) rest hx)
      · exact fun x hx => g3 (processComputers_affected_users_subset cu
          (a.user_to_computers cu) (logProcessing cu a) rest hx)
      · exact fun x hx => g4 (processComputers_affected_computers_subset cu
          (a.user_to_computers cu) (logProcessing cu a) rest hx)
      · rcases processComputers_log cu (a.user_to_computers cu)
          (logProcessing cu a) rest with ⟨t1, ht1⟩
        refine ⟨[s!"Processing user: {cu}"] ++ t1 ++ t2, ?_⟩
        rw [ht2, ht1]
        simp [logProcessing]

theorem bfsLoop_pred (fuel : Nat) (queue : List String)
    (a out : SecurityAnalyzer) (PU PC : String → Prop)
    (hq : ∀ u ∈ queue, PU u)
    (hvu : ∀ u ∈ a.visited_users, PU u)
    (hvc : ∀ c ∈ a.visited_computers, PC c)
    (hedgeU : ∀ u c, PU u → c ∈ a.user_to_computers u → PC c)
    (hedgeC : ∀ c u, PC c → u ∈ a.computer_to_users c → PU u)
    (h : bfsLoop fuel queue a = some out) :
    (∀ u ∈ out.visited_users, PU u) ∧ (∀ c ∈ out.visited_computers, PC c) := by
  induction fuel generalizing queue a with
  | zero =>
    cases queue with
    | nil =>
      rw [bfsLoop_nil] at h
      cases h
      exact ⟨hvu, hvc⟩
    | cons cu rest => simp [bfsLoop] at h
  | succ n ih =>
    cases queue with
    | nil =>
      rw [bfsLoop_nil] at h
      cases h
      exact ⟨hvu, hvc⟩
    | cons cu rest =>
      rw [bfsLoop_succ] at h
      have hPUcu : PU cu := hq cu (List.mem_cons_self cu rest)
      have hrun := processComputers_pred cu (a.user_to_computers cu)
        (logProcessing cu a) rest PU PC
        (fun c hc => hedgeU cu c hPUcu hc) hedgeC hvu hvc
      have hfields := processComputers_fields cu (a.user_to_computers cu)
        (logProcessing cu a) rest
      refine ih _ _ ?_ hrun.1 hrun.2 ?_ ?_ h
      · intro u hu
        rcases processComputers_queue_cases cu (a.user_to_computers cu)
          (logProcessing cu a) rest u hu with h' | h'
        · exact hq u (List.mem_cons_of_mem cu h')
        · exact hrun.1 u h'
      · intro u c hu hc
        rw [hfields.1] at hc
        exact hedgeU u c hu hc
      · intro c u hc hu
        rw [hfields.2.1] at hu
        exact hedgeC c u hc hu

theorem bfsLoop_closure (fuel : Nat) (queue : List String)
    (a out : SecurityAnalyzer)
    (hqv : ∀ u ∈ queue, u ∈ a.visited_users)
    (hb : ∀ u ∈ a.visited_users, u ∉ queue →
      ∀ c ∈ a.user_to_computers u, c ∈ a.visited_computers)
    (hcl : ∀ c ∈ a.visited_computers, ∀ u ∈ a.computer_to_users c,
      u ∈ a.visited_users)
    (h : bfsLoop fuel queue a = some out) :
    (∀ u ∈ out.visited_users, ∀ c ∈ out.user_to_computers u,
        c ∈ out.visited_computers) ∧
    (∀ c ∈ out.visited_computers, ∀ u ∈ out.computer_to_users c,
        u ∈ out.visited_users) := by
  induction fuel generalizing queue a with
  | zero =>
    cases queue with
    | nil =>
      rw [bfsLoop_nil] at h
      cases h
      exact ⟨fun u hu => hb u hu (List.not_mem_nil u), hcl⟩
    | cons cu rest => simp [bfsLoop] at h
  | succ n ih =>
    cases queue with
    | nil =>
      rw [bfsLoop_nil] at h
      cases h
      exact ⟨fun u hu => hb u hu (List.not_mem_nil u), hcl⟩
    | cons cu rest =>
      rw [bfsLoop_succ] at h
      have hfields := processComputers_fields cu (a.user_to_computers cu)
        (logProcessing cu a) rest
      refine ih _ _ ?_ ?_ ?_ h
      · intro u hu
        rcases processComputers_queue_cases cu (a.user_to_computers cu)
          (logProcessing cu a) rest u hu with h' | h'
        · exact processComputers_visited_users_subset cu
            (a.user_to_computers cu) (logProcessing cu a) rest
            (hqv u (List.mem_cons_of_mem cu h'))
        · exact h'
      · intro u hu hnq c hc
        rw [hfields.1] at hc
        rcases processComputers_visited_queue cu (a.user_to_computers cu)
          (logProcessing cu a) rest u hu with h' | h'
        · by_cases hcu : u = cu
          · subst hcu
            exact processComputers_computers_visited u
              (a.user_to_computers u) (logProcessing u a) rest c hc
          · have hurest : u ∉ rest := by
              intro hr
              rcases processComputers_queue cu (a.user_to_computers cu)
                (logProcessing cu a) rest with ⟨t, ht⟩
              exact hnq (by rw [ht]; exact List.mem_append_left t hr)
            have : u ∉ cu :: rest := by
              intro hmem
              rcases List.mem_cons.mp hmem with rfl | hr
              · exact hcu rfl
              · exact hurest hr
            exact processComputers_visited_computers_subset cu
              (a.user_to_computers cu) (logProcessing cu a) rest
              (hb u h' this c hc)
        · exact absurd h' hnq
      · intro c hc u hu
        rw [hfields.2.1] at hu
        exact processComputers_closure cu (a.user_to_computers cu)
          (logProcessing cu a) rest hcl c hc u hu

theorem bfsLoop_isSome (fuel : Nat) (queue : List String)
    (a : SecurityAnalyzer) (U : Finset String)
    (hU : ∀ c u, u ∈ a.computer_to_users c → u ∈ U)
    (hm : (U \ a.visited_users).card + queue.length ≤ fuel) :
    ∃ out, bfsLoop fuel queue a = some out := by
  induction fuel generalizing queue a with
  | zero =>
    cases queue with
    | nil => exact ⟨a, bfsLoop_nil 0 a⟩
    | cons cu rest => simp at hm
  | succ n ih =>
    cases queue with
    | nil => exact ⟨a, bfsLoop_nil (n + 1) a⟩
    | cons cu rest =>
      rw [bfsLoop_succ]
      have hfields := processComputers_fields cu (a.user_to_computers cu)
        (logProcessing cu a) rest
      have hstep := processComputers_measure cu (a.user_to_computers cu)
        (logProcessing cu a) rest U hU
      refine ih _ _ ?_ ?_
      · intro c u hu
        rw [hfields.2.1] at hu
        exact hU c u hu
      · have he : (U \ (logProcessing cu a).visited_users).card
            = (U \ a.visited_users).card := rfl
        rw [he] at hstep
        simp only [List.length_cons] at hm
        omega

theorem bfsLoop_sync (fuel : Nat) (queue : List String)
    (a out : SecurityAnalyzer)
    (h1 : a.affected_users = a.visited_users)
    (h2 : a.affected_computers = a.visited_computers)
    (h : bfsLoop fuel queue a = some out) :
    out.affected_users = out.visited_users ∧
    out.affected_computers = out.visited_computers := by
  induction fuel generalizing queue a with
  | zero =>
    cases queue with
    | nil =>
      rw [bfsLoop_nil] at h
      cases h
      exact ⟨h1, h2⟩
    | cons cu rest => simp [bfsLoop] at h
  | succ n ih =>
    cases queue with
    | nil =>
      rw [bfsLoop_nil] at h
      cases h
      exact ⟨h1, h2⟩
    | cons cu rest =>
      rw [bfsLoop_succ] at h
      exact ih _ _
        (processComputers_sync_users cu (a.user_to_computers cu)
          (logProcessing cu a) rest h1)
        (processComputers_sync_computers cu (a.user_to_computers cu)
          (logProcessing cu a) rest h2) h

/-! ### Lemmas about `analyze_compromise` -/

theorem analyzeFuel_isSome (a : SecurityAnalyzer) (seed : String)
    (hwf : WFAnalyzer a) :
    ∃ out, analyzeFuel a seed (a.access_logs.length + 1) = some out := by
  refine bfsLoop_isSome (a.access_logs.length + 1) [seed]
    (startAnalysis seed a) (accessUsers a) ?_ ?_
  · intro c u hu
    exact hwf c u hu
  · have h1 : (accessUsers a \ (startAnalysis seed a).visited_users).card
        ≤ (accessUsers a).card :=
      Finset.card_le_card (Finset.sdiff_subset)
    have h2 : (accessUsers a).card ≤ a.access_logs.length := by
      calc (accessUsers a).card
          ≤ (a.access_logs.map (fun r => r.affected_user_id)).length :=
            List.toFinset_card_le _
        _ = a.access_logs.length := List.length_map _ _
    simp only [List.length_singleton]
    omega

theorem analyzeFuel_eq (a : SecurityAnalyzer) (seed : String)
    (hwf : WFAnalyzer a) :
    analyzeFuel a seed (a.access_logs.length + 1)
      = some (analyze_compromise a seed) := by
  rcases analyzeFuel_isSome a seed hwf with ⟨out, hout⟩
  rw [analyze_compromise, hout]
  rfl

theorem analyze_fields (a : SecurityAnalyzer) (seed : String) :
    (analyze_compromise a seed).user_to_computers = a.user_to_computers ∧
    (analyze_compromise a seed).computer_to_users = a.computer_to_users ∧
    (analyze_compromise a seed).computer_activities
        = a.computer_activities ∧
    (analyze_compromise a seed).access_logs = a.access_logs ∧
    (analyze_compromise a seed).activity_logs = a.activity_logs := by
  cases hout : analyzeFuel a seed (a.access_logs.length + 1) with
  | none => rw [analyze_compromise, hout]; exact ⟨rfl, rfl, rfl, rfl, rfl⟩
  | some out =>
    have ha : analyze_compromise a seed = out := by
      rw [analyze_compromise, hout]
      rfl
    have hout' : bfsLoop (a.access_logs.length + 1) [seed]
        (startAnalysis seed a) = some out := hout
    rw [ha]
    obtain ⟨g1, g2, g3, g4, g5⟩ := bfsLoop_fields _ _ _ _ hout'
    exact ⟨g1, g2, g3, g4, g5⟩

theorem analyze_wf (a : SecurityAnalyzer) (seed : String)
    (hwf : WFAnalyzer a) : WFAnalyzer (analyze_compromise a seed) := by
  intro c u hu
  obtain ⟨_, h2, _, h4, _⟩ := analyze_fields a seed
  rw [h2] at hu
  have : u ∈ accessUsers a := hwf c u hu
  simpa [accessUsers, h4] using this

theorem analyze_mono (a : SecurityAnalyzer) (seed : String) :
    a.visited_users ⊆ (analyze_compromise a seed).visited_users ∧
    a.visited_computers ⊆ (analyze_compromise a seed).visited_computers ∧
    a.affected_users ⊆ (analyze_compromise a seed).affected_users ∧
    a.affected_computers ⊆ (analyze_compromise a seed).affected_computers ∧
    ∃ t, (analyze_compromise a seed).event_log = a.event_log ++ t := by
  cases hout : analyzeFuel a seed (a.access_logs.length + 1) with
  | none =>
    rw [analyze_compromise, hout]
    exact ⟨Finset.Subset.refl _, Finset.Subset.refl _,
      Finset.Subset.refl _, Finset.Subset.refl _, [], by simp⟩
  | some out =>
    have ha : analyze_compromise a seed = out := by
      rw [analyze_compromise, hout]
      rfl
    have hout' : bfsLoop (a.access_logs.length + 1) [seed]
        (startAnalysis seed a) = some out := hout
    rw [ha]
    obtain ⟨g1, g2, g3, g4, t, ht⟩ := bfsLoop_mono _ _ _ _ hout'
    refine ⟨?_, g2, ?_, g4, ?_⟩
    · exact fun x hx => g1 (Finset.mem_insert_of_mem hx)
    · exact fun x hx => g3 (Finset.mem_insert_of_mem hx)
    · exact ⟨[s!"Analysis started with suspicious user {seed}"] ++ t, by
        rw [ht]; simp [startAnalysis]⟩

theorem analyze_sync (a : SecurityAnalyzer) (seed : String)
    (hwf : WFAnalyzer a)
    (h1 : a.affected_users = a.visited_users)
    (h2 : a.affected_computers = a.visited_computers) :
    (analyze_compromise a seed).affected_users
        = (analyze_compromise a seed).visited_users ∧
    (analyze_compromise a seed).affected_computers
        = (analyze_compromise a seed).visited_computers := by
  have hout := analyzeFuel_eq a seed hwf
  refine bfsLoop_sync _ _ _ _ ?_ ?_ hout
  · show insert seed a.affected_users = insert seed a.visited_users
    rw [h1]
  · exact h2

theorem analyze_seed_visited (a : SecurityAnalyzer) (seed : String)
    (hwf : WFAnalyzer a) :
    seed ∈ (analyze_compromise a seed).visited_users := by
  have hout := analyzeFuel_eq a seed hwf
  obtain ⟨g1, _, _, _, _⟩ := bfsLoop_mono _ _ _ _ hout
  exact g1 (Finset.mem_insert_self seed a.visited_users)

theorem analyze_closure (a : SecurityAnalyzer) (seed : String)
    (hwf : WFAnalyzer a)
    (hb : ∀ u ∈ a.visited_users, ∀ c ∈ a.user_to_computers u,
      c ∈ a.visited_computers)
    (hcl : ∀ c ∈ a.visited_computers, ∀ u ∈ a.computer_to_users c,
      u ∈ a.visited_users) :
    (∀ u ∈ (analyze_compromise a seed).visited_users,
        ∀ c ∈ (analyze_compromise a seed).user_to_computers u,
          c ∈ (analyze_compromise a seed).visited_computers) ∧
    (∀ c ∈ (analyze_compromise a seed).visited_computers,
        ∀ u ∈ (analyze_compromise a seed).computer_to_users c,
          u ∈ (analyze_compromise a seed).visited_users) := by
  have hout := analyzeFuel_eq a seed hwf
  refine bfsLoop_closure _ _ _ _ ?_ ?_ ?_ hout
  · intro u hu
    rcases List.mem_singleton.mp hu with rfl
    exact Finset.mem_insert_self u a.visited_users
  · intro u hu hnq c hc
    have hu' : u ∈ a.visited_users := by
      rcases Finset.mem_insert.mp hu with rfl | h'
      · exact absurd (List.mem_singleton.mpr rfl) hnq
      · exact h'
    exact hb u hu' c hc
  · intro c hc u hu
    exact Finset.mem_insert_of_mem (hcl c hc u hu)

theorem analyze_pred (a : SecurityAnalyzer) (seed : String)
    (PU PC : String → Prop)
    (hwf : WFAnalyzer a)
    (hseed : PU seed)
    (hvu : ∀ u ∈ a.visited_users, PU u)
    (hvc : ∀ c ∈ a.visited_computers, PC c)
    (hedgeU : ∀ u c, PU u → c ∈ a.user_to_computers u → PC c)
    (hedgeC : ∀ c u, PC c → u ∈ a.computer_to_users c → PU u) :
    (∀ u ∈ (analyze_compromise a seed).visited_users, PU u) ∧
    (∀ c ∈ (analyze_compromise a seed).visited_computers, PC c) := by
  have hout : bfsLoop (a.access_logs.length + 1) [seed]
      (startAnalysis seed a) = some (analyze_compromise a seed) :=
    analyzeFuel_eq a seed hwf
  refine bfsLoop_pred _ _ _ _ PU PC ?_ ?_ ?_ ?_ ?_ hout
  · intro u hu
    rcases List.mem_singleton.mp hu with rfl
    exact hseed
  · intro u hu
    rcases Finset.mem_insert.mp hu with rfl | h'
    · exact hseed
    · exact hvu u h'
  · exact hvc
  · exact hedgeU
  · exact hedgeC

/-! ### Lemmas about checked construction -/

theorem BuildError.eq_malformed (e : BuildError) :
    e = BuildError.malformedRecord := by
  cases e
  rfl

theorem parseActivityRecord_error_iff (r : RawActivityRecord) :
    parseActivityRecord r = .error .malformedRecord ↔ r.malformed := by
  rcases r with ⟨u, c⟩
  cases u <;> cases c <;>
    simp [parseActivityRecord, requireField, RawActivityRecord.malformed]

theorem parseAccessRecord_error_iff (r : RawAccessRecord) :
    parseAccessRecord r = .error .malformedRecord ↔ r.malformed := by
  rcases r with ⟨c, u, t⟩
  cases c <;> cases u <;> cases t <;>
    simp [parseAccessRecord, requireField, RawAccessRecord.malformed]

theorem parseAll_error_iff {α β : Type} (f : α → Except BuildError β)
    (l : List α) :
    parseAll f l = .error .malformedRecord
      ↔ ∃ x ∈ l, f x = .error .malformedRecord := by
  induction l with
  | nil => simp [parseAll]
  | cons x xs ih =>
    cases hfx : f x with
    | error e =>
      rw [BuildError.eq_malformed e] at hfx
      simp only [parseAll, hfx]
      exact iff_of_true trivial ⟨x, List.mem_cons_self x xs, hfx⟩
    | ok y =>
      cases hall : parseAll f xs with
      | error e =>
        rw [BuildError.eq_malformed e] at hall
        simp only [parseAll, hfx, hall]
        rcases ih.mp hall with ⟨x', hx', hfx'⟩
        exact iff_of_true trivial ⟨x', List.mem_cons_of_mem x hx', hfx'⟩
      | ok ys =>
        simp only [parseAll, hfx, hall]
        constructor
        · intro hcontra
          cases hcontra
        · rintro ⟨x', hx', hfx'⟩
          rcases List.mem_cons.mp hx' with rfl | hx''
          · rw [hfx] at hfx'
            cases hfx'
          · have : parseAll f xs = .error .malformedRecord :=
              ih.mpr ⟨x', hx'', hfx'⟩
            rw [hall] at this
            cases this

/-! ### Reachability characterization -/

theorem analyze_reachability_aux (a : SecurityAnalyzer) (seed : String)
    (hwf : WFAnalyzer a)
    (hvu : a.visited_users = ∅) (hvc : a.visited_computers = ∅)
    (hau : a.affected_users = ∅) (hac : a.affected_computers = ∅) :
    (∀ u, u ∈ (analyze_compromise a seed).affected_users
        ↔ ReachesUser a seed u) ∧
    (∀ c, c ∈ (analyze_compromise a seed).affected_computers
        ↔ ReachesComputer a seed c) := by
  have hvac_u : ∀ u ∈ a.visited_users, ReachesUser a seed u := by
    rw [hvu]
    intro u hu
    exact absurd hu (Finset.not_mem_empty u)
  have hvac_c : ∀ c ∈ a.visited_computers, ReachesComputer a seed c := by
    rw [hvc]
    intro c hc
    exact absurd hc (Finset.not_mem_empty c)
  have hb0 : ∀ u ∈ a.visited_users, ∀ c ∈ a.user_to_computers u,
      c ∈ a.visited_computers := by
    rw [hvu]
    intro u hu
    exact absurd hu (Finset.not_mem_empty u)
  have hc0 : ∀ c ∈ a.visited_computers, ∀ u ∈ a.computer_to_users c,
      u ∈ a.visited_users := by
    rw [hvc]
    intro c hc
    exact absurd hc (Finset.not_mem_empty c)
  have hsound := analyze_pred a seed (ReachesUser a seed)
    (ReachesComputer a seed) hwf ReachesUser.refl hvac_u hvac_c
    (fun u c hu hc => ⟨u, hu, hc⟩)
    (fun c u hc hu => Exists.elim hc
      (fun u' h' => ReachesUser.step h'.1 h'.2 hu))
  have hclos := analyze_closure a seed hwf hb0 hc0
  have hsync := analyze_sync a seed hwf (by rw [hau, hvu]) (by rw [hac, hvc])
  have hfields := analyze_fields a seed
  have hseedv := analyze_seed_visited a seed hwf
  have hcompl : ∀ u, ReachesUser a seed u →
      u ∈ (analyze_compromise a seed).visited_users := by
    intro u hr
    induction hr with
    | refl => exact hseedv
    | @step v c v' h1 hcv hvu' ih =>
      have hc' : c ∈ (analyze_compromise a seed).user_to_computers v := by
        rw [hfields.1]
        exact hcv
      have hcvis : c ∈ (analyze_compromise a seed).visited_computers :=
        hclos.1 v ih c hc'
      have hu' : v' ∈ (analyze_compromise a seed).computer_to_users c := by
        rw [hfields.2.1]
        exact hvu'
      exact hclos.2 c hcvis v' hu'
  constructor
  · intro u
    rw [hsync.1]
    exact ⟨fun hu => hsound.1 u hu, fun hr => hcompl u hr⟩
  · intro c
    rw [hsync.2]
    constructor
    · exact fun hc => hsound.2 c hc
    · rintro ⟨u, hr, hcu⟩
      have hu := hcompl u hr
      have hc' : c ∈ (analyze_compromise a seed).user_to_computers u := by
        rw [hfields.1]
        exact hcu
      exact hclos.1 u hu c hc'

/-! ### The claims -/

/-- Claim C1: for every index built from finite activity and access records
and every seed user, when `analyze_compromise` terminates, `affected_users`
equals the set of users reachable from the seed via alternating
user→computer edges (from `user_to_computers`) and computer→user edges
(from `computer_to_users`), and `affected_computers` equals the set of
computers reachable the same way. -/
theorem claim_reachability_equivalence (access_logs : List AccessRecord)
    (activity_logs : List ActivityRecord) (seed : String) :
    (∀ u, u ∈ (analyze_compromise
          (SecurityAnalyzer.init access_logs activity_logs) seed).affected_users
        ↔ ReachesUser (SecurityAnalyzer.init access_logs activity_logs)
            seed u) ∧
    (∀ c, c ∈ (analyze_compromise
          (SecurityAnalyzer.init access_logs activity_logs) seed).affected_computers
        ↔ ReachesComputer (SecurityAnalyzer.init access_logs activity_logs)
            seed c) :=
  analyze_reachability_aux (SecurityAnalyzer.init access_logs activity_logs)
    seed (init_wf access_logs activity_logs) rfl rfl rfl rfl

/-- Claim C2: on the index built from activity records `[(U1,C1)]` and access
records `[(C1,U2,"login"), (C1,U3,"copy")]`, analyzing seed `"U1"` yields
affected users `{U1,U2,U3}`, affected computers `{C1}`, and exactly the ten
expected trace lines in order. -/
theorem claim_concrete_scenario :
    (analyze_compromise (SecurityAnalyzer.init
        [{ computer_id := "C1", affected_user_id := "U2",
           activity_type := "login" },
         { computer_id := "C1", affected_user_id := "U3",
           activity_type := "copy" }]
        [{ user_id := "U1", computer_id := "C1" }]) "U1").event_log
      = ["Analysis started with suspicious user U1",
         "Processing user: U1",
         "User U1 accessed computer C1",
         "Activities on computer C1:",
         "  - login by user U2",
         "  - copy by user U3",
         "Computer C1 affected user U2",
         "Computer C1 affected user U3",
         "Processing user: U2",
         "Processing user: U3"] ∧
    (analyze_compromise (SecurityAnalyzer.init
        [{ computer_id := "C1", affected_user_id := "U2",
           activity_type := "login" },
         { computer_id := "C1", affected_user_id := "U3",
           activity_type := "copy" }]
        [{ user_id := "U1", computer_id := "C1" }]) "U1").affected_users
      = {"U1", "U2", "U3"} ∧
    (analyze_compromise (SecurityAnalyzer.init
        [{ computer_id := "C1", affected_user_id := "U2",
           activity_type := "login" },
         { computer_id := "C1", affected_user_id := "U3",
           activity_type := "copy" }]
        [{ user_id := "U1", computer_id := "C1" }]) "U1").affected_computers
      = {"C1"} := by
  decide

/-- Claim C3: for every finite index and every seed, the traversal
terminates: with fuel `access_logs.length + 1` the embedded `while` loop
reaches the empty-queue state (it returns `some`, which `bfsLoop` does only
once the queue has drained), and its value is `analyze_compromise`.  This
rests on `bfsLoop_isSome`: each enqueued user is freshly marked visited, so
the measure `|accessUsers \ visited_users| + queue.length` drops at every
dequeue and the queue empties after finitely many dequeues. -/
theorem claim_termination (access_logs : List AccessRecord)
    (activity_logs : List ActivityRecord) (seed : String) :
    analyzeFuel (SecurityAnalyzer.init access_logs activity_logs) seed
        (access_logs.length + 1)
      = some (analyze_compromise
          (SecurityAnalyzer.init access_logs activity_logs) seed) :=
  analyzeFuel_eq _ seed (init_wf access_logs activity_logs)

/-- Claim C4: index construction fails with the MalformedRecord condition
exactly when some activity or access row has a required field missing, and
on such a failure no analyzer object — hence no partial index — is
produced: `initChecked` returns `Except.error` instead of any
`SecurityAnalyzer`, so no traversal can run. -/
theorem claim_malformed_all_or_nothing (access : List RawAccessRecord)
    (activity : List RawActivityRecord) :
    SecurityAnalyzer.initChecked access activity
        = .error .malformedRecord
      ↔ ((∃ r ∈ activity, r.malformed) ∨ (∃ r ∈ access, r.malformed)) := by
  cases hact : parseAll parseActivityRecord activity with
  | error e =>
    simp only [SecurityAnalyzer.initChecked, hact]
    rw [BuildError.eq_malformed e] at hact
    constructor
    · intro _
      left
      rcases (parseAll_error_iff _ _).mp hact with ⟨r, hr, hre⟩
      exact ⟨r, hr, (parseActivityRecord_error_iff r).mp hre⟩
    · intro _
      trivial
  | ok acts =>
    cases hacc : parseAll parseAccessRecord access with
    | error e =>
      simp only [SecurityAnalyzer.initChecked, hact, hacc]
      rw [BuildError.eq_malformed e] at hacc
      constructor
      · intro _
        right
        rcases (parseAll_error_iff _ _).mp hacc with ⟨r, hr, hre⟩
        exact ⟨r, hr, (parseAccessRecord_error_iff r).mp hre⟩
      · intro _
        trivial
    | ok accs =>
      simp only [SecurityAnalyzer.initChecked, hact, hacc]
      constructor
      · intro hcontra
        exact Except.noConfusion hcontra
      · rintro (⟨r, hr, hm⟩ | ⟨r, hr, hm⟩)
        · have he : parseAll parseActivityRecord activity
              = .error .malformedRecord :=
            (parseAll_error_iff _ _).mpr
              ⟨r, hr, (parseActivityRecord_error_iff r).mpr hm⟩
          rw [hact] at he
          exact Except.noConfusion he
        · have he : parseAll parseAccessRecord access
              = .error .malformedRecord :=
            (parseAll_error_iff _ _).mpr
              ⟨r, hr, (parseAccessRecord_error_iff r).mpr hm⟩
          rw [hacc] at he
          exact Except.noConfusion he

/-- Claim C5: for every index and every seed with no `user_to_computers`
entries, the run logs exactly the start line and the processing line, with
`affected_users = {seed}` and `affected_computers = ∅`; this is a normal
`analyze_compromise` result, not a failure. -/
theorem claim_no_seed_edges (access_logs : List AccessRecord)
    (activity_logs : List ActivityRecord) (seed : String)
    (h : (SecurityAnalyzer.init access_logs activity_logs).user_to_computers
        seed = []) :
    (analyze_compromise (SecurityAnalyzer.init access_logs activity_logs)
        seed).event_log
      = [s!"Analysis started with suspicious user {seed}",
         s!"Processing user: {seed}"] ∧
    (analyze_compromise (SecurityAnalyzer.init access_logs activity_logs)
        seed).affected_users = {seed} ∧
    (analyze_compromise (SecurityAnalyzer.init access_logs activity_logs)
        seed).affected_computers = ∅ := by
  have h' : (startAnalysis seed
      (SecurityAnalyzer.init access_logs activity_logs)).user_to_computers
        seed = [] := h
  have ha : analyze_compromise
      (SecurityAnalyzer.init access_logs activity_logs) seed
      = logProcessing seed (startAnalysis seed
          (SecurityAnalyzer.init access_logs activity_logs)) := by
    rw [analyze_compromise, analyzeFuel, bfsLoop_succ, h']
    rw [processComputers_skip_all _ _ _ _ (by intro c hc; cases hc)]
    rw [bfsLoop_nil]
    rfl
  rw [ha]
  refine ⟨?_, ?_, ?_⟩
  · show ([] ++ [s!"Analysis started with suspicious user {seed}"])
        ++ [s!"Processing user: {seed}"]
      = [s!"Analysis started with suspicious user {seed}",
         s!"Processing user: {seed}"]
    simp
  · show insert seed (∅ : Finset String) = {seed}
    rfl
  · rfl

theorem claim_no_seed_edges_witness :
    ((SecurityAnalyzer.init [] []).user_to_computers "U1" = []) ∧
    ((analyze_compromise (SecurityAnalyzer.init [] []) "U1").event_log
        = ["Analysis started with suspicious user U1",
           "Processing user: U1"] ∧
     (analyze_compromise (SecurityAnalyzer.init [] []) "U1").affected_users
        = {"U1"} ∧
     (analyze_compromise (SecurityAnalyzer.init [] []) "U1").affected_computers
        = ∅) :=
  ⟨rfl, claim_no_seed_edges [] [] "U1" rfl⟩

/-- Claim C6: revisit suppression.  When a computer already in
`visited_computers` is reached again the whole step for it is skipped — the
state (event log included) and queue come out exactly as if the computer
were not in the list, so no second access line, activities block or
affected-user lines appear.  On the spec's example (activity records
additionally contain `(U2,C1)`) the trace is identical to the single-visit
trace: no duplicate block for `C1`. -/
theorem claim_revisit_suppression :
    (∀ (current_user computer : String) (rest : List String)
        (a : SecurityAnalyzer) (queue : List String),
      computer ∈ a.visited_computers →
      processComputers current_user (computer :: rest) a queue
        = processComputers current_user rest a queue) ∧
    (analyze_compromise (SecurityAnalyzer.init
        [{ computer_id := "C1", affected_user_id := "U2",
           activity_type := "login" },
         { computer_id := "C1", affected_user_id := "U3",
           activity_type := "copy" }]
        [{ user_id := "U1", computer_id := "C1" },
         { user_id := "U2", computer_id := "C1" }]) "U1").event_log
      = ["Analysis started with suspicious user U1",
         "Processing user: U1",
         "User U1 accessed computer C1",
         "Activities on computer C1:",
         "  - login by user U2",
         "  - copy by user U3",
         "Computer C1 affected user U2",
         "Computer C1 affected user U3",
         "Processing user: U2",
         "Processing user: U3"] := by
  constructor
  · intro current_user computer rest a queue h
    exact processComputers_cons_visited current_user computer rest a queue h
  · decide

theorem claim_revisit_suppression_witness :
    "C1" ∈ ({ SecurityAnalyzer.init [] [] with
        visited_computers := {"C1"} } : SecurityAnalyzer).visited_computers ∧
    processComputers "U1" ["C1"]
        { SecurityAnalyzer.init [] [] with visited_computers := {"C1"} } []
      = processComputers "U1" []
        { SecurityAnalyzer.init [] [] with visited_computers := {"C1"} } [] :=
  ⟨by decide, claim_revisit_suppression.1 "U1" "C1" []
    { SecurityAnalyzer.init [] [] with visited_computers := {"C1"} } []
    (by decide)⟩

/-- Claim C7: throughout any run, `visited_users`, `visited_computers`,
`affected_users` and `affected_computers` only grow and the event log only
gains a suffix: this holds across each step of the inner user loop, each
step of the computer loop, and a whole `analyze_compromise` call, so no
element is ever removed and the affected counts are non-decreasing. -/
theorem claim_monotonicity :
    (∀ (computer : String) (users : List String) (a : SecurityAnalyzer)
        (queue : List String),
      a.visited_users ⊆ (processUsers computer users a queue).1.visited_users ∧
      a.visited_computers
          ⊆ (processUsers computer users a queue).1.visited_computers ∧
      a.affected_users
          ⊆ (processUsers computer users a queue).1.affected_users ∧
      a.affected_computers
          ⊆ (processUsers computer users a queue).1.affected_computers ∧
      ∃ t, (processUsers computer users a queue).1.event_log
          = a.event_log ++ t) ∧
    (∀ (current_user : String) (computers : List String)
        (a : SecurityAnalyzer) (queue : List String),
      a.visited_users
          ⊆ (processComputers current_user computers a queue).1.visited_users ∧
      a.visited_computers
          ⊆ (processComputers current_user computers a queue).1.visited_computers ∧
      a.affected_users
          ⊆ (processComputers current_user computers a queue).1.affected_users ∧
      a.affected_computers
          ⊆ (processComputers current_user computers a queue).1.affected_computers ∧
      ∃ t, (processComputers current_user computers a queue).1.event_log
          = a.event_log ++ t) ∧
    (∀ (a : SecurityAnalyzer) (seed : String),
      a.visited_users ⊆ (analyze_compromise a seed).visited_users ∧
      a.visited_computers ⊆ (analyze_compromise a seed).visited_computers ∧
      a.affected_users ⊆ (analyze_compromise a seed).affected_users ∧
      a.affected_computers ⊆ (analyze_compromise a seed).affected_computers ∧
      ∃ t, (analyze_compromise a seed).event_log = a.event_log ++ t) := by
  refine ⟨?_, ?_, ?_⟩
  · intro computer users a queue
    obtain ⟨_, _, _, _, _, f6, f7⟩ := processUsers_fields computer users a queue
    exact ⟨processUsers_visited_subset computer users a queue,
      by rw [f6], processUsers_affected_subset computer users a queue,
      by rw [f7], processUsers_log computer users a queue⟩
  · intro current_user computers a queue
    exact ⟨processComputers_visited_users_subset current_user computers a queue,
      processComputers_visited_computers_subset current_user computers a queue,
      processComputers_affected_users_subset current_user computers a queue,
      processComputers_affected_computers_subset current_user computers a queue,
      processComputers_log current_user computers a queue⟩
  · intro a seed
    exact analyze_mono a seed

/-- Claim C8: re-running `analyze_compromise` on an engine that already
completed a run does not reset state: the first run's visited/affected sets
are contained in the second run's and the first run's log is a list
whose extension is the second run's log; moreover when the second seed was
already visited by the first run nothing is re-expanded — the sets are
exactly unchanged and the log only gains the start and processing lines. -/
theorem claim_reentrancy (access_logs : List AccessRecord)
    (activity_logs : List ActivityRecord) (seed1 seed2 : String) :
    ((analyze_compromise (SecurityAnalyzer.init access_logs activity_logs)
          seed1).visited_users
        ⊆ (analyze_compromise (analyze_compromise
            (SecurityAnalyzer.init access_logs activity_logs) seed1)
              seed2).visited_users ∧
     (analyze_compromise (SecurityAnalyzer.init access_logs activity_logs)
          seed1).visited_computers
        ⊆ (analyze_compromise (analyze_compromise
            (SecurityAnalyzer.init access_logs activity_logs) seed1)
              seed2).visited_computers ∧
     (analyze_compromise (SecurityAnalyzer.init access_logs activity_logs)
          seed1).affected_users
        ⊆ (analyze_compromise (analyze_compromise
            (SecurityAnalyzer.init access_logs activity_logs) seed1)
              seed2).affected_users ∧
     (analyze_compromise (SecurityAnalyzer.init access_logs activity_logs)
          seed1).affected_computers
        ⊆ (analyze_compromise (analyze_compromise
            (SecurityAnalyzer.init access_logs activity_logs) seed1)
              seed2).affected_computers ∧
     ∃ t, (analyze_compromise (analyze_compromise
            (SecurityAnalyzer.init access_logs activity_logs) seed1)
              seed2).event_log
        = (analyze_compromise (SecurityAnalyzer.init access_logs
            activity_logs) seed1).event_log ++ t) ∧
    (seed2 ∈ (analyze_compromise (SecurityAnalyzer.init access_logs
        activity_logs) seed1).visited_users →
      (analyze_compromise (analyze_compromise
          (SecurityAnalyzer.init access_logs activity_logs) seed1)
            seed2).visited_users
          = (analyze_compromise (SecurityAnalyzer.init access_logs
              activity_logs) seed1).visited_users ∧
      (analyze_compromise (analyze_compromise
          (SecurityAnalyzer.init access_logs activity_logs) seed1)
            seed2).visited_computers
          = (analyze_compromise (SecurityAnalyzer.init access_logs
              activity_logs) seed1).visited_computers ∧
      (analyze_compromise (analyze_compromise
          (SecurityAnalyzer.init access_logs activity_logs) seed1)
            seed2).affected_users
          = (analyze_compromise (SecurityAnalyzer.init access_logs
              activity_logs) seed1).affected_users ∧
      (analyze_compromise (analyze_compromise
          (SecurityAnalyzer.init access_logs activity_logs) seed1)
            seed2).affected_computers
          = (analyze_compromise (SecurityAnalyzer.init access_logs
              activity_logs) seed1).affected_computers ∧
      (analyze_compromise (analyze_compromise
          (SecurityAnalyzer.init access_logs activity_logs) seed1)
            seed2).event_log
          = (analyze_compromise (SecurityAnalyzer.init access_logs
              activity_logs) seed1).event_log
            ++ [s!"Analysis started with suspicious user {seed2}",
                s!"Processing user: {seed2}"]) := by
  have hwf0 := init_wf access_logs activity_logs
  have hsync1 := analyze_sync
    (SecurityAnalyzer.init access_logs activity_logs) seed1 hwf0 rfl rfl
  have hclos1 := analyze_closure
    (SecurityAnalyzer.init access_logs activity_logs) seed1 hwf0
    (fun u hu => absurd hu (Finset.not_mem_empty u))
    (fun c hc => absurd hc (Finset.not_mem_empty c))
  constructor
  · exact analyze_mono
      (analyze_compromise (SecurityAnalyzer.init access_logs activity_logs)
        seed1) seed2
  · intro h
    have haff : seed2 ∈ (analyze_compromise
        (SecurityAnalyzer.init access_logs activity_logs)
          seed1).affected_users := by
      rw [hsync1.1]
      exact h
    have hskip := processComputers_skip_all seed2
      ((startAnalysis seed2 (analyze_compromise
        (SecurityAnalyzer.init access_logs activity_logs)
          seed1)).user_to_computers seed2)
      (logProcessing seed2 (startAnalysis seed2 (analyze_compromise
        (SecurityAnalyzer.init access_logs activity_logs) seed1))) []
      (fun c hc => hclos1.1 seed2 h c hc)
    have ha2 : analyze_compromise (analyze_compromise
        (SecurityAnalyzer.init access_logs activity_logs) seed1) seed2
        = logProcessing seed2 (startAnalysis seed2 (analyze_compromise
            (SecurityAnalyzer.init access_logs activity_logs) seed1)) := by
      rw [analyze_compromise, analyzeFuel, bfsLoop_succ, hskip, bfsLoop_nil]
      rfl
    rw [ha2]
    refine ⟨?_, rfl, ?_, rfl, ?_⟩
    · show insert seed2 (analyze_compromise
          (SecurityAnalyzer.init access_logs activity_logs)
            seed1).visited_users
        = (analyze_compromise (SecurityAnalyzer.init access_logs
            activity_logs) seed1).visited_users
      exact Finset.insert_eq_self.mpr h
    · show insert seed2 (analyze_compromise
          (SecurityAnalyzer.init access_logs activity_logs)
            seed1).affected_users
        = (analyze_compromise (SecurityAnalyzer.init access_logs
            activity_logs) seed1).affected_users
      exact Finset.insert_eq_self.mpr haff
    · show ((analyze_compromise (SecurityAnalyzer.init access_logs
          activity_logs) seed1).event_log
          ++ [s!"Analysis started with suspicious user {seed2}"])
          ++ [s!"Processing user: {seed2}"]
        = (analyze_compromise (SecurityAnalyzer.init access_logs
            activity_logs) seed1).event_log
          ++ [s!"Analysis started with suspicious user {seed2}",
              s!"Processing user: {seed2}"]
      simp

theorem claim_reentrancy_witness :
    "U1" ∈ (analyze_compromise (SecurityAnalyzer.init
        [{ computer_id := "C1", affected_user_id := "U2",
           activity_type := "login" }]
        [{ user_id := "U1", computer_id := "C1" }]) "U1").visited_users ∧
    (analyze_compromise (analyze_compromise (SecurityAnalyzer.init
        [{ computer_id := "C1", affected_user_id := "U2",
           activity_type := "login" }]
        [{ user_id := "U1", computer_id := "C1" }]) "U1") "U1").event_log
      = (analyze_compromise (SecurityAnalyzer.init
          [{ computer_id := "C1", affected_user_id := "U2",
             activity_type := "login" }]
          [{ user_id := "U1", computer_id := "C1" }]) "U1").event_log
        ++ ["Analysis started with suspicious user U1",
            "Processing user: U1"] :=
  ⟨by decide,
    ((claim_reentrancy
      [{ computer_id := "C1", affected_user_id := "U2",
         activity_type := "login" }]
      [{ user_id := "U1", computer_id := "C1" }] "U1" "U1").2
      (by decide)).2.2.2.2⟩

/-- Claim C9: `analyze_compromise` leaves the three index mappings
`user_to_computers`, `computer_to_users` and `computer_activities` — and
the stored raw logs — exactly unchanged; only the visited/affected sets
and the event log are mutated by the traversal. -/
theorem claim_index_read_only (a : SecurityAnalyzer) (seed : String) :
    (analyze_compromise a seed).user_to_computers = a.user_to_computers ∧
    (analyze_compromise a seed).computer_to_users = a.computer_to_users ∧
    (analyze_compromise a seed).computer_activities
        = a.computer_activities ∧
    (analyze_compromise a seed).access_logs = a.access_logs ∧
    (analyze_compromise a seed).activity_logs = a.activity_logs :=
  analyze_fields a seed

/-- Claim C10: every user named in an activity trace line of a visited
computer ends up affected: if `c` is in the final `affected_computers` and
`(au, ty)` is one of its `computer_activities` entries, then `au` is in the
final `affected_users`, because `computer_to_users` and
`computer_activities` are built from the same access rows. -/
theorem claim_activity_users_affected (access_logs : List AccessRecord)
    (activity_logs : List ActivityRecord) (seed c au ty : String)
    (hc : c ∈ (analyze_compromise
        (SecurityAnalyzer.init access_logs activity_logs)
          seed).affected_computers)
    (hau : (au, ty) ∈ (analyze_compromise
        (SecurityAnalyzer.init access_logs activity_logs)
          seed).computer_activities c) :
    au ∈ (analyze_compromise
        (SecurityAnalyzer.init access_logs activity_logs)
          seed).affected_users := by
  have hwf := init_wf access_logs activity_logs
  have hfields := analyze_fields
    (SecurityAnalyzer.init access_logs activity_logs) seed
  have hsync := analyze_sync
    (SecurityAnalyzer.init access_logs activity_logs) seed hwf rfl rfl
  have hclos := analyze_closure
    (SecurityAnalyzer.init access_logs activity_logs) seed hwf
    (fun u hu => absurd hu (Finset.not_mem_empty u))
    (fun c' hc' => absurd hc' (Finset.not_mem_empty c'))
  have hau' : (au, ty) ∈ buildComputerActivities access_logs c := by
    rw [hfields.2.2.1] at hau
    exact hau
  have hmem : au ∈ (analyze_compromise
      (SecurityAnalyzer.init access_logs activity_logs)
        seed).computer_to_users c := by
    rw [hfields.2.1]
    show au ∈ buildComputerToUsers access_logs c
    rw [buildComputerToUsers_eq_map_fst]
    exact List.mem_map.mpr ⟨(au, ty), hau', rfl⟩
  have hcv : c ∈ (analyze_compromise
      (SecurityAnalyzer.init access_logs activity_logs)
        seed).visited_computers := by
    rw [← hsync.2]
    exact hc
  rw [hsync.1]
  exact hclos.2 c hcv au hmem

theorem claim_activity_users_affected_witness :
    "C1" ∈ (analyze_compromise (SecurityAnalyzer.init
        [{ computer_id := "C1", affected_user_id := "U2",
           activity_type := "login" },
         { computer_id := "C1", affected_user_id := "U3",
           activity_type := "copy" }]
        [{ user_id := "U1", computer_id := "C1" }]) "U1").affected_computers ∧
    ("U2", "login") ∈ (analyze_compromise (SecurityAnalyzer.init
        [{ computer_id := "C1", affected_user_id := "U2",
           activity_type := "login" },
         { computer_id := "C1", affected_user_id := "U3",
           activity_type := "copy" }]
        [{ user_id := "U1", computer_id := "C1" }]) "U1").computer_activities
          "C1" ∧
    "U2" ∈ (analyze_compromise (SecurityAnalyzer.init
        [{ computer_id := "C1", affected_user_id := "U2",
           activity_type := "login" },
         { computer_id := "C1", affected_user_id := "U3",
           activity_type := "copy" }]
        [{ user_id := "U1", computer_id := "C1" }]) "U1").affected_users :=
  ⟨by decide, by decide,
    claim_activity_users_affected
      [{ computer_id := "C1", affected_user_id := "U2",
         activity_type := "login" },
       { computer_id := "C1", affected_user_id := "U3",
         activity_type := "copy" }]
      [{ user_id := "U1", computer_id := "C1" }]
      "U1" "C1" "U2" "login" (by decide) (by decide)⟩
